import Mathlib

/-!
Verification of the digital-twin conversational agent (Python sources under
`src/fastmcp/digital_twin/`) against its natural-language specification.

The embedding is shallow: Python `str` values manipulated character-wise are
modelled as `List Char` (`Str`), Python `float` as `ℚ`, Python `dict`
(insertion-ordered) as association lists, fallible operations as
`Option`/`Except`, and `datetime` timestamps as `ℕ` (ISO-format timestamp
strings compare chronologically, so a linearly ordered stamp is the faithful
abstraction of the sort keys used by the code).
-/

namespace DigitalTwin

/-! ## Python string primitives, modelled over `List Char` -/

/-- Python strings, modelled as lists of characters. -/
abbrev Str := List Char

/-- The whitespace characters stripped by Python's `str.strip()`. -/
def pyIsSpace (c : Char) : Bool :=
  c == ' ' || c == '\t' || c == '\n' || c == '\r' || c == '\x0b' || c == '\x0c'

/-- Python `s.split("\n")`: split into segments at each newline.  The result
is always nonempty; an empty string yields `[[]]`. -/
def splitLines : Str → List Str
  | [] => [[]]
  | c :: rest =>
    match splitLines rest with
    | [] => [[]]
    | r :: rs => if c == '\n' then [] :: r :: rs else (c :: r) :: rs

/-- Python `s.strip()`: drop leading and trailing whitespace. -/
def strTrim (s : Str) : Str :=
  ((s.dropWhile pyIsSpace).reverse.dropWhile pyIsSpace).reverse

/-- Python `s.startswith(p)`. -/
def strStartsWith : Str → Str → Bool
  | _, [] => true
  | [], _ :: _ => false
  | a :: s, b :: p => a == b && strStartsWith s p

/-- Python `s.endswith(p)`. -/
def strEndsWith (s p : Str) : Bool :=
  strStartsWith s.reverse p.reverse

/-- ASCII lower-casing of one character (Python `str.lower` on the ASCII
fragment actually present in the modelled call sites). -/
def lowerChar (c : Char) : Char :=
  if 'A' ≤ c ∧ c ≤ 'Z' then Char.ofNat (c.toNat + 32) else c

/-- Python `s.lower()`. -/
def strLower (s : Str) : Str := s.map lowerChar

/-- Python `sub in s`: substring containment. -/
def strContains : Str → Str → Bool
  | [], sub => sub == []
  | s@(_ :: rest), sub => strStartsWith s sub || strContains rest sub

/-- Fuel-driven worker for `strReplace`; the fuel is the length of the
subject string, which suffices because every step consumes at least one
character. -/
def strReplaceAux (pat rep : Str) : ℕ → Str → Str
  | 0, s => s
  | _ + 1, [] => []
  | fuel + 1, c :: rest =>
    if pat ≠ [] ∧ strStartsWith (c :: rest) pat then
      rep ++ strReplaceAux pat rep fuel ((c :: rest).drop pat.length)
    else
      c :: strReplaceAux pat rep fuel rest

/-- Python `s.replace(pat, rep)`: replace all non-overlapping occurrences,
left to right.  (The modelled call sites never pass an empty pattern.) -/
def strReplace (s pat rep : Str) : Str :=
  strReplaceAux pat rep s.length s

/-- Truthiness of Python `Optional[str]`: `None` and `""` are falsy. -/
def truthyOpt : Option Str → Bool
  | none => false
  | some s => decide (s ≠ [])

/-- Python dict read on an insertion-ordered association list (dict keys are
unique, so first match is the binding). -/
def pyLookup {β : Type} : List (Str × β) → Str → Option β
  | [], _ => none
  | (k, v) :: tl, n => if n = k then some v else pyLookup tl n

/-! ## Personality engine (`personality.py`) -/

/-- Clamp into `[0, 1]`: Python `max(0.0, min(1.0, x))`. -/
def clamp01 (x : ℚ) : ℚ := max 0 (min 1 x)

/-- `PersonalityTrait`: a named scalar trait with a value history.  A history
entry records the stored (clamped) value and the update timestamp. -/
structure PersonalityTrait where
  name : Str
  value : ℚ
  history : List (ℚ × ℕ)
  deriving Repr, DecidableEq

/-- `PersonalityTrait.update`: clamp the new value into `[0,1]`, store it and
append it (with the timestamp) to the history. -/
def PersonalityTrait.update (t : PersonalityTrait) (new_value : ℚ) (ts : ℕ) :
    PersonalityTrait :=
  let v := max 0 (min 1 new_value)
  { t with value := v, history := t.history ++ [(v, ts)] }

/-- `Personality`: the insertion-ordered trait dictionary plus the
last-updated timestamp. -/
structure Personality where
  traits : List (Str × PersonalityTrait)
  last_updated : ℕ
  deriving Repr, DecidableEq

/-- Replace the trait stored under `name` by its updated version (the effect
of the in-place mutation `self.traits[name].update(...)`). -/
def updEntries (l : List (Str × PersonalityTrait)) (name : Str) (v : ℚ)
    (ts : ℕ) : List (Str × PersonalityTrait) :=
  l.map fun pr => if pr.1 = name then (pr.1, pr.2.update v ts) else pr

/-- `Personality.update_trait`: if the name is known, update that trait and
the last-updated stamp; otherwise do nothing (the silent no-op of the
source's `if name in self.traits:`). -/
def Personality.update_trait (p : Personality) (name : Str) (new_value : ℚ)
    (ts : ℕ) : Personality :=
  if (pyLookup p.traits name).isSome then
    { traits := updEntries p.traits name new_value ts, last_updated := ts }
  else p

/-- One iteration of `evolve`'s `for trait_name, trait in self.traits.items()`
body: if the name is in the interaction context, update that trait toward the
context value. -/
def evolveStep (interaction_context : List (Str × ℚ)) (ts : ℕ)
    (acc : Personality) (pr : Str × PersonalityTrait) : Personality :=
  match pyLookup interaction_context pr.1 with
  | some context_value =>
    acc.update_trait pr.1 (pr.2.value * (9/10) + context_value * (1/10)) ts
  | none => acc

/-- `Personality.evolve`: for every trait whose name appears in the
interaction context, move its value toward the context target by
`value * 0.9 + target * 0.1` (via `update_trait`, hence clamped).  The fold
mirrors the source's iteration over `self.traits.items()`; the value fed to
the update is the trait value read at iteration time, which (keys being
unique in a dict) is the pre-call value of that trait. -/
def Personality.evolve (p : Personality) (interaction_context : List (Str × ℚ))
    (ts : ℕ) : Personality :=
  p.traits.foldl (evolveStep interaction_context ts) p

/-- Iterate `evolve` with a fixed context. -/
def Personality.evolveN (p : Personality) (ctx : List (Str × ℚ)) (ts : ℕ) :
    ℕ → Personality
  | 0 => p
  | n + 1 => (p.evolveN ctx ts n).evolve ctx ts

/-- The current value of a named trait (0 if the name is unknown). -/
def Personality.traitValue (p : Personality) (name : Str) : ℚ :=
  match pyLookup p.traits name with
  | some t => t.value
  | none => 0

/-! ## Memory engine (`memory.py`, class `MemorySystem`) -/

/-- One entry of the in-memory `self.memories` list.  Embeddings are float
vectors (`List ℚ`), the ISO timestamp string is abstracted to `ℕ`, and the
open metadata dict to a string association list. -/
structure MemoryRecord where
  content : Str
  type : Str
  embedding : List ℚ
  timestamp : ℕ
  metadata : List (Str × Str)
  deriving Repr, DecidableEq

/-- The mutable state of a `MemorySystem`: the configured cap and the
current ordered record list. -/
structure MemorySystem where
  max_memories : ℕ
  memories : List MemoryRecord
  deriving Repr, DecidableEq

/-- Python's `lst[-k:]`.  Note the `-0` quirk: for `k = 0` the slice is
`lst[0:]`, i.e. the whole list, not the empty list. -/
def pySliceLast (l : List α) (k : ℕ) : List α :=
  if k = 0 then l else l.drop (l.length - k)

/-- `np.dot` on two 1-D float vectors: the dot product when the lengths
match, and a raised `ValueError` (here `none`) otherwise. -/
def npDot (a b : List ℚ) : Option ℚ :=
  if a.length = b.length then some (List.zipWith (· * ·) a b).sum else none

/-- `MemorySystem.add_memory`: embed the content (a provider failure
propagates — the surrounding `except` re-raises), append the record, trim
with `self.memories[-self.max_memories:]` when over the cap, persist. -/
def MemorySystem.add_memory (st : MemorySystem) (embed : Str → Option (List ℚ))
    (content memory_type : Str) (metadata : List (Str × Str)) (ts : ℕ) :
    Except String MemorySystem :=
  match embed content with
  | none => .error "provider error"
  | some e =>
    let memory : MemoryRecord :=
      { content := content, type := memory_type, embedding := e,
        timestamp := ts, metadata := metadata }
    let ms := st.memories ++ [memory]
    let ms := if ms.length > st.max_memories then pySliceLast ms st.max_memories else ms
    .ok { st with memories := ms }

/-- The type filter of `get_relevant_memories` (`if memory_type:` followed by
a list comprehension building a new list). -/
def filterByType (l : List MemoryRecord) (memory_type : Option Str) :
    List MemoryRecord :=
  if truthyOpt memory_type then
    l.filter fun m => decide (m.type = memory_type.getD [])
  else l

/-- The scoring loop `for memory in memories: ... np.dot(...)` with a raise
escaping at the first failing record: sequence a fallible function over a
list, left to right. -/
def mapMExcept {α β : Type} (f : α → Except String β) : List α → Except String (List β)
  | [] => .ok []
  | a :: tl =>
    match f a with
    | .error e => .error e
    | .ok b =>
      match mapMExcept f tl with
      | .error e => .error e
      | .ok bs => .ok (b :: bs)

/-- Score one record against the query embedding; a shape mismatch is
`np.dot` raising `ValueError`. -/
def scoreOne (qe : List ℚ) (m : MemoryRecord) :
    Except String (ℚ × MemoryRecord) :=
  match npDot qe m.embedding with
  | some s => .ok (s, m)
  | none => .error "ValueError"

/-- The tuple order used by `similarities.sort(reverse=True)` on
`(score, memory)` pairs: descending by score. -/
def memRel (a b : ℚ × MemoryRecord) : Prop := b.1 ≤ a.1

instance : DecidableRel memRel := fun a b => inferInstanceAs (Decidable (b.1 ≤ a.1))

instance : IsTotal (ℚ × MemoryRecord) memRel := ⟨fun a b => le_total b.1 a.1⟩

instance : IsTrans (ℚ × MemoryRecord) memRel := ⟨fun _ _ _ h1 h2 => le_trans h2 h1⟩

/-- The body of `get_relevant_memories` after the query has been embedded:
score every record (`np.dot` may raise), sort the `(score, memory)` tuples
descending, take the top `limit`.  CPython's `list.sort` on such tuples
compares the second components — the dicts — exactly when two scores are
equal, which raises `TypeError`; hence the sort succeeds iff the scores are
pairwise distinct. -/
def relevantCore (mems : List MemoryRecord) (qe : List ℚ) (limit : ℕ) :
    Except String (List MemoryRecord) :=
  match mapMExcept (scoreOne qe) mems with
  | .error e => .error e
  | .ok scored =>
    if (scored.map Prod.fst).Nodup then
      .ok (((scored.insertionSort memRel).take limit).map Prod.snd)
    else .error "TypeError: dict comparison"

/-- `MemorySystem.get_relevant_memories`: the whole body runs under
`try: ... except Exception: return []`, so any internal failure (embedding
error, `np.dot` shape error, tuple-sort `TypeError`) yields `[]`. -/
def MemorySystem.get_relevant_memories (st : MemorySystem)
    (embed : Str → Option (List ℚ)) (query : Str) (limit : ℕ)
    (memory_type : Option Str) : List MemoryRecord :=
  match embed query with
  | none => []
  | some qe =>
    match relevantCore (filterByType st.memories memory_type) qe limit with
    | .ok l => l
    | .error _ => []

/-- The timestamp-descending order used by
`memories.sort(key=lambda x: x["timestamp"], reverse=True)`; Python's sort
is stable, as is `insertionSort` with this reflexive relation. -/
def recRel (a b : MemoryRecord) : Prop := b.timestamp ≤ a.timestamp

instance : DecidableRel recRel :=
  fun a b => inferInstanceAs (Decidable (b.timestamp ≤ a.timestamp))

instance : IsTotal MemoryRecord recRel := ⟨fun a b => Nat.le_total b.timestamp a.timestamp⟩

instance : IsTrans MemoryRecord recRel := ⟨fun _ _ _ h1 h2 => le_trans h2 h1⟩

/-- `MemorySystem.get_recent_memories`, returning the result list *and* the
post-call state.  With a truthy type filter the comprehension builds a fresh
list and the store is untouched; with no filter `memories` aliases
`self.memories`, so the in-place `sort` reorders the store itself. -/
def MemorySystem.get_recent_memories (st : MemorySystem) (limit : ℕ)
    (memory_type : Option Str) : List MemoryRecord × MemorySystem :=
  if truthyOpt memory_type then
    let mems := st.memories.filter fun m => decide (m.type = memory_type.getD [])
    ((mems.insertionSort recRel).take limit, st)
  else
    let sorted := st.memories.insertionSort recRel
    (sorted.take limit, { st with memories := sorted })

/-- `MemorySystem.get_memories_for_reflection`: the time-period filter is an
unimplemented `pass`, so this always sorts `self.memories` in place and
takes the top `limit`. -/
def MemorySystem.get_memories_for_reflection (st : MemorySystem)
    (time_period : Option Str) (limit : ℕ) :
    List MemoryRecord × MemorySystem :=
  let sorted := st.memories.insertionSort recRel
  (sorted.take limit, { st with memories := sorted })

/-! ## Persistence (`_save_memories` / `_load_memories`)

`_save_memories` serializes the whole `self.memories` list to one JSON array
(`json.dump`), and `_load_memories` replaces `self.memories` with the parsed
contents of that file (`json.load`).  The JSON document is modelled as an
AST; serialization to concrete bytes is the external `json` library. -/

/-- The JSON documents produced and consumed by the memory file. -/
inductive Json where
  | null
  | str (s : Str)
  | num (q : ℚ)
  | arr (xs : List Json)
  | obj (fields : List (Str × Json))

/-- Encode the metadata dict. -/
def encodeMeta (m : List (Str × Str)) : Json :=
  .obj (m.map fun p => (p.1, .str p.2))

/-- Decode a metadata dict. -/
def decodeMeta : Json → Option (List (Str × Str))
  | .obj fs => fs.mapM fun p =>
      match p.2 with
      | .str s => some (p.1, s)
      | _ => none
  | _ => none

/-- Decode a float vector. -/
def decodeEmbedding : Json → Option (List ℚ)
  | .arr xs => xs.mapM fun j =>
      match j with
      | .num q => some q
      | _ => none
  | _ => none

/-- Encode one memory record as the five-field JSON object written by
`add_memory`. -/
def encodeRecord (r : MemoryRecord) : Json :=
  .obj [("content".data, .str r.content),
        ("type".data, .str r.type),
        ("embedding".data, .arr (r.embedding.map .num)),
        ("timestamp".data, .num r.timestamp),
        ("metadata".data, encodeMeta r.metadata)]

/-- Decode one memory record from the JSON object shape written by
`encodeRecord`. -/
def decodeRecord : Json → Option MemoryRecord
  | .obj [(k1, .str c), (k2, .str ty), (k3, emb), (k4, .num ts), (k5, meta)] =>
    if k1 = "content".data ∧ k2 = "type".data ∧ k3 = "embedding".data ∧
        k4 = "timestamp".data ∧ k5 = "metadata".data ∧ ts.den = 1 ∧ 0 ≤ ts.num then
      match decodeEmbedding emb, decodeMeta meta with
      | some e, some m =>
        some { content := c, type := ty, embedding := e,
               timestamp := ts.num.toNat, metadata := m }
      | _, _ => none
    else none
  | _ => none

/-- `_save_memories`: the file contents after a save. -/
def save_memories (st : MemorySystem) : Json :=
  .arr (st.memories.map encodeRecord)

/-- `_load_memories`: parse the file back into the record list. -/
def load_memories : Json → Option (List MemoryRecord)
  | .arr xs => xs.mapM decodeRecord
  | _ => none

/-! ## Section parser (`analyze_interaction` / `_parse_reflection_sections`)

Both call sites contain the same line-oriented parser; it is modelled once. -/

/-- The growing section mapping; Python dict assignment replaces the value
in place for an existing key and appends otherwise. -/
abbrev Sections := List (Str × List Str)

/-- Python `sections[k] = v`. -/
def dictInsert (d : Sections) (k : Str) (v : List Str) : Sections :=
  if (pyLookup d k).isSome then
    d.map fun p => if p.1 = k then (p.1, v) else p
  else d ++ [(k, v)]

/-- Loop state of the parser: sections built so far, current section name,
items of the current section. -/
structure ParseState where
  sections : Sections
  current_section : Option Str
  current_items : List Str
  deriving Repr, DecidableEq

/-- Flush the current section into the mapping — the source's
`if current_section: sections[current_section] = current_items` (an empty
section name is falsy and is not flushed). -/
def flushSection (st : ParseState) : Sections :=
  match st.current_section with
  | some s => if s = [] then st.sections else dictInsert st.sections s st.current_items
  | none => st.sections

/-- One iteration of the parser's `for line in text.split("\n")` body. -/
def parseStep (st : ParseState) (rawLine : Str) : ParseState :=
  let line := strTrim rawLine
  if line = [] then st
  else if strEndsWith line [':'] then
    { sections := flushSection st,
      current_section := some (strLower line.dropLast),
      current_items := [] }
  else if strStartsWith line ['-', ' '] then
    { st with current_items := st.current_items ++ [line.drop 2] }
  else st

/-- The full section parser. -/
def parseSections (text : Str) : Sections :=
  flushSection ((splitLines text).foldl parseStep ⟨[], none, []⟩)

/-! ## Response post-processing (`_adjust_response_style`) -/

/-- Python `personality_traits.get(name, 0.5)`. -/
def traitGet (traits : List (Str × ℚ)) (name : Str) : ℚ :=
  (pyLookup traits name).getD (1/2)

/-- `_adjust_response_style`: three ordered, threshold-gated groups of string
substitutions (formality, then enthusiasm, then politeness).  The thresholds
come from `config["personality"]["response_style"]`. -/
def adjust_response_style (resp : Str) (personality_traits : List (Str × ℚ))
    (formality_level enthusiasm_level politeness_level : ℚ) : Str :=
  let response := resp
  let response :=
    if traitGet personality_traits "conscientiousness".data > formality_level then
      strReplace (strReplace (strReplace (strReplace response
        "gonna".data "going to".data)
        "wanna".data "want to".data)
        "yeah".data "yes".data)
        "nope".data "no".data
    else response
  let response :=
    if traitGet personality_traits "extraversion".data > enthusiasm_level then
      let r := strReplace (strReplace response ['.'] ['!']) ['!'] ['!', '!']
      if !(strEndsWith r ['!']) then r ++ ['!'] else r
    else response
  let response :=
    if traitGet personality_traits "agreeableness".data > politeness_level then
      let r := "I think ".data ++ strLower response
      if !(["please".data, "thank".data, "appreciate".data].any fun w =>
            strContains (strLower r) w) then
        r ++ " Thank you for asking!".data
      else r
    else response
  response

/-! ## Interaction orchestrator (`interaction.py`, `simulate_response`)

The orchestrator sequences recall → generate → record → analyze → apply;
each awaited component call may fail, and both `simulate_response` and
`update_profile` wrap their bodies in `try: ... except Exception: log; raise`,
which in the `Except` monad is the identity — errors short-circuit out.  The
fallible components are parameters of the definition. -/

/-- `simulate_response` (with `update_profile`'s analyze/apply phases
inlined, which is all that call does): recall, generate, record the
interaction, analyze, apply — each `await` may raise, and the
`try/except: log; raise` wrappers re-raise the first failure unchanged.
Returns the response and the index of the appended interaction record. -/
def simulate_response {ε : Type}
    (recallMems : Except ε (List MemoryRecord))
    (generate : List MemoryRecord → Except ε Str)
    (analyze : Str → Except ε Sections)
    (applyUpdates : Sections → Except ε Unit)
    (interaction_history : List Str) : Except ε (Str × ℕ) :=
  match recallMems with
  | .error e => .error e
  | .ok mems =>
    match generate mems with
    | .error e => .error e
    | .ok resp =>
      let history := interaction_history ++ [resp]
      match analyze resp with
      | .error e => .error e
      | .ok analysis =>
        match applyUpdates analysis with
        | .error e => .error e
        | .ok _ => .ok (resp, history.length - 1)

/-! ## Association-list lemmas for the trait dictionary -/

theorem pyLookup_cons {β : Type} (k : Str) (v : β) (tl : List (Str × β))
    (n : Str) :
    pyLookup ((k, v) :: tl) n = if n = k then some v else pyLookup tl n := rfl

theorem lookup_updEntries (l : List (Str × PersonalityTrait)) (n name : Str)
    (v : ℚ) (ts : ℕ) :
    pyLookup (updEntries l name v ts) n =
      if n = name then (pyLookup l n).map (fun t => t.update v ts)
      else pyLookup l n := by
  induction l with
  | nil => simp [updEntries, pyLookup]
  | cons pr tl ih =>
    obtain ⟨k, t⟩ := pr
    have hcons : updEntries ((k, t) :: tl) name v ts =
        (if k = name then (k, t.update v ts) else (k, t)) :: updEntries tl name v ts := by
      simp only [updEntries, List.map_cons]
    by_cases hm : k = name
    · rw [hcons, if_pos hm]
      by_cases hn : n = k
      · rw [pyLookup_cons, if_pos hn, if_pos (hn.trans hm), pyLookup_cons, if_pos hn]
        rfl
      · have hnm : ¬ n = name := fun h => hn (h.trans hm.symm)
        rw [pyLookup_cons, if_neg hn, ih, if_neg hnm, if_neg hnm, pyLookup_cons, if_neg hn]
    · rw [hcons, if_neg hm]
      by_cases hn : n = k
      · have hnm : ¬ n = name := fun h => hm (hn.symm.trans h)
        rw [pyLookup_cons, if_pos hn, if_neg hnm, pyLookup_cons, if_pos hn]
      · rw [pyLookup_cons, if_neg hn, ih, pyLookup_cons, if_neg hn]

theorem updEntries_keys (l : List (Str × PersonalityTrait)) (name : Str)
    (v : ℚ) (ts : ℕ) :
    (updEntries l name v ts).map Prod.fst = l.map Prod.fst := by
  induction l with
  | nil => rfl
  | cons pr tl ih =>
    obtain ⟨k, t⟩ := pr
    have hcons : updEntries ((k, t) :: tl) name v ts =
        (if k = name then (k, t.update v ts) else (k, t)) :: updEntries tl name v ts := by
      simp only [updEntries, List.map_cons]
    rw [hcons]
    by_cases hm : k = name
    · rw [if_pos hm]
      simp [ih]
    · rw [if_neg hm]
      simp [ih]

theorem update_trait_lookup (p : Personality) (name : Str) (v : ℚ) (ts : ℕ)
    (n : Str) :
    pyLookup (p.update_trait name v ts).traits n =
      if n = name then (pyLookup p.traits n).map (fun t => t.update v ts)
      else pyLookup p.traits n := by
  unfold Personality.update_trait
  by_cases hs : (pyLookup p.traits name).isSome
  · simp only [hs, if_true, lookup_updEntries]
  · simp only [hs, if_false]
    by_cases hn : n = name
    · subst hn
      rw [Option.not_isSome_iff_eq_none] at hs
      simp [hs]
    · simp [hn]

theorem update_trait_keys (p : Personality) (name : Str) (v : ℚ) (ts : ℕ) :
    (p.update_trait name v ts).traits.map Prod.fst = p.traits.map Prod.fst := by
  unfold Personality.update_trait
  by_cases hs : (pyLookup p.traits name).isSome <;> simp [hs, updEntries_keys]

/-- C4: for a known trait name, `update_trait` stores the clamped value,
appends exactly one history entry, and sets the last-updated stamp; other
traits are untouched; for an unknown name it is a silent no-op. -/
theorem update_trait_spec (p : Personality) (name : Str) (x : ℚ) (ts : ℕ) :
    (∀ tr, pyLookup p.traits name = some tr →
      pyLookup (p.update_trait name x ts).traits name = some (tr.update x ts)
      ∧ (tr.update x ts).value = clamp01 x
      ∧ 0 ≤ (tr.update x ts).value ∧ (tr.update x ts).value ≤ 1
      ∧ (tr.update x ts).history.length = tr.history.length + 1
      ∧ (p.update_trait name x ts).last_updated = ts
      ∧ ∀ n, n ≠ name →
          pyLookup (p.update_trait name x ts).traits n = pyLookup p.traits n)
    ∧ (pyLookup p.traits name = none → p.update_trait name x ts = p) := by
  constructor
  · intro tr htr
    refine ⟨?_, rfl, ?_, ?_, ?_, ?_, ?_⟩
    · rw [update_trait_lookup, if_pos rfl, htr]
      rfl
    · exact le_max_left 0 _
    · exact max_le (by norm_num) (min_le_left 1 _)
    · simp [PersonalityTrait.update]
    · unfold Personality.update_trait
      simp [htr]
    · intro n hn
      rw [update_trait_lookup, if_neg hn]
  · intro hnone
    unfold Personality.update_trait
    simp [hnone]

/-! ## Lemmas about `evolve` -/

theorem pyLookup_isSome_iff {β : Type} (l : List (Str × β)) (n : Str) :
    (pyLookup l n).isSome ↔ n ∈ l.map Prod.fst := by
  induction l with
  | nil => simp [pyLookup]
  | cons pr tl ih =>
    obtain ⟨k, v⟩ := pr
    by_cases hn : n = k
    · subst hn
      rw [pyLookup_cons, if_pos rfl, List.map_cons]
      exact ⟨fun _ => List.mem_cons_self _ _, fun _ => rfl⟩
    · rw [pyLookup_cons, if_neg hn, ih, List.map_cons]
      exact ⟨fun h => List.mem_cons_of_mem _ h, fun h => (List.mem_cons.1 h).resolve_left hn⟩

theorem pyLookup_nodup_split {β : Type} (l : List (Str × β)) (n : Str) (b : β)
    (hnd : (l.map Prod.fst).Nodup) (h : pyLookup l n = some b) :
    ∃ l₁ l₂, l = l₁ ++ (n, b) :: l₂
      ∧ (∀ pr ∈ l₁, pr.1 ≠ n) ∧ (∀ pr ∈ l₂, pr.1 ≠ n) := by
  induction l with
  | nil => simp [pyLookup] at h
  | cons pr tl ih =>
    obtain ⟨k, v⟩ := pr
    rw [List.map_cons, List.nodup_cons] at hnd
    by_cases hn : n = k
    · subst hn
      rw [pyLookup_cons, if_pos rfl] at h
      obtain rfl : v = b := by injection h
      refine ⟨[], tl, rfl, by simp, ?_⟩
      intro pr hpr he
      have hmem : pr.1 ∈ tl.map Prod.fst := List.mem_map_of_mem Prod.fst hpr
      rw [he] at hmem
      exact hnd.1 hmem
    · rw [pyLookup_cons, if_neg hn] at h
      obtain ⟨l₁, l₂, heq, h₁, h₂⟩ := ih hnd.2 h
      exact ⟨(k, v) :: l₁, l₂, by rw [heq, List.cons_append], by
        intro pr hpr
        rcases List.mem_cons.1 hpr with hh | hh
        · subst hh
          exact fun he => hn he.symm
        · exact h₁ pr hh, h₂⟩

theorem evolveStep_apply (ctx : List (Str × ℚ)) (ts : ℕ) (acc : Personality)
    (k : Str) (tr : PersonalityTrait) :
    evolveStep ctx ts acc (k, tr) =
      match pyLookup ctx k with
      | some cv => acc.update_trait k (tr.value * (9/10) + cv * (1/10)) ts
      | none => acc := rfl

theorem foldl_evolveStep_lookup (ctx : List (Str × ℚ)) (ts : ℕ)
    (l : List (Str × PersonalityTrait)) (n : Str) :
    ∀ acc : Personality, (∀ pr ∈ l, pr.1 ≠ n) →
      pyLookup (l.foldl (evolveStep ctx ts) acc).traits n = pyLookup acc.traits n := by
  induction l with
  | nil => intro acc _; rfl
  | cons pr tl ih =>
    intro acc h
    rw [List.foldl_cons, ih _ fun q hq => h q (List.mem_cons_of_mem pr hq)]
    unfold evolveStep
    cases pyLookup ctx pr.1 with
    | none => rfl
    | some cv =>
      rw [update_trait_lookup, if_neg]
      exact fun he => h pr (List.mem_cons_self pr tl) he.symm

theorem foldl_evolveStep_keys (ctx : List (Str × ℚ)) (ts : ℕ)
    (l : List (Str × PersonalityTrait)) :
    ∀ acc : Personality,
      (l.foldl (evolveStep ctx ts) acc).traits.map Prod.fst
        = acc.traits.map Prod.fst := by
  induction l with
  | nil => intro acc; rfl
  | cons pr tl ih =>
    intro acc
    rw [List.foldl_cons, ih]
    unfold evolveStep
    cases pyLookup ctx pr.1 with
    | none => rfl
    | some cv => exact update_trait_keys ..

theorem evolve_keys (p : Personality) (ctx : List (Str × ℚ)) (ts : ℕ) :
    (p.evolve ctx ts).traits.map Prod.fst = p.traits.map Prod.fst :=
  foldl_evolveStep_keys ctx ts p.traits p

/-- The effect of one `evolve` call on the entry of a given trait name: if
the context names it, the trait moves by the smoothing rule; otherwise the
entry is untouched. -/
theorem evolve_lookup (p : Personality) (ctx : List (Str × ℚ)) (ts : ℕ)
    (name : Str) (tr : PersonalityTrait)
    (hnd : (p.traits.map Prod.fst).Nodup)
    (htr : pyLookup p.traits name = some tr) :
    pyLookup (p.evolve ctx ts).traits name =
      match pyLookup ctx name with
      | some t => some (tr.update (tr.value * (9/10) + t * (1/10)) ts)
      | none => some tr := by
  obtain ⟨l₁, l₂, heq, h₁, h₂⟩ := pyLookup_nodup_split p.traits name tr hnd htr
  unfold Personality.evolve
  rw [heq, List.foldl_append, List.foldl_cons, foldl_evolveStep_lookup ctx ts l₂ name _ h₂]
  have hq : pyLookup (l₁.foldl (evolveStep ctx ts) p).traits name
      = some tr := by
    rw [foldl_evolveStep_lookup ctx ts l₁ name p h₁, htr]
  cases hc : pyLookup ctx name with
  | none =>
    simp only [evolveStep_apply, hc]
    exact hq
  | some t =>
    simp only [evolveStep_apply, hc]
    rw [update_trait_lookup, if_pos rfl, hq]
    rfl

theorem evolveN_keys (p : Personality) (ctx : List (Str × ℚ)) (ts : ℕ) :
    ∀ n, (p.evolveN ctx ts n).traits.map Prod.fst = p.traits.map Prod.fst := by
  intro n
  induction n with
  | zero => rfl
  | succ n ih => rw [Personality.evolveN, evolve_keys, ih]

/-- The quantitative behaviour of the trait value sequence under iterated
`evolve` with a constant context: the value stays in `[0,1]`, and its signed
distance to the target contracts by the factor `9/10` at every step. -/
theorem evolveN_value (p : Personality) (ctx : List (Str × ℚ)) (ts : ℕ)
    (name : Str) (tr : PersonalityTrait) (t : ℚ)
    (hnd : (p.traits.map Prod.fst).Nodup)
    (htr : pyLookup p.traits name = some tr)
    (hctx : pyLookup ctx name = some t)
    (hv0 : 0 ≤ tr.value ∧ tr.value ≤ 1) (ht : 0 ≤ t ∧ t ≤ 1) :
    ∀ n, (0 ≤ (p.evolveN ctx ts n).traitValue name
        ∧ (p.evolveN ctx ts n).traitValue name ≤ 1)
      ∧ (p.evolveN ctx ts (n+1)).traitValue name - t
          = (9/10) * ((p.evolveN ctx ts n).traitValue name - t) := by
  have keymem : name ∈ p.traits.map Prod.fst :=
    (pyLookup_isSome_iff p.traits name).1 (by rw [htr]; rfl)
  have hsome : ∀ n, ∃ trn,
      pyLookup (p.evolveN ctx ts n).traits name = some trn := by
    intro n
    have : (pyLookup (p.evolveN ctx ts n).traits name).isSome := by
      rw [pyLookup_isSome_iff, evolveN_keys]
      exact keymem
    exact Option.isSome_iff_exists.1 this
  have hndN : ∀ n, ((p.evolveN ctx ts n).traits.map Prod.fst).Nodup := by
    intro n
    rw [evolveN_keys]
    exact hnd
  have step : ∀ n trn, pyLookup (p.evolveN ctx ts n).traits name = some trn →
      (p.evolveN ctx ts (n+1)).traitValue name
        = clamp01 (trn.value * (9/10) + t * (1/10)) := by
    intro n trn hn
    show (((p.evolveN ctx ts n).evolve ctx ts)).traitValue name = _
    unfold Personality.traitValue
    rw [evolve_lookup _ ctx ts name trn (hndN n) hn, hctx]
    rfl
  have value_of : ∀ n trn, pyLookup (p.evolveN ctx ts n).traits name = some trn →
      (p.evolveN ctx ts n).traitValue name = trn.value := by
    intro n trn hn
    unfold Personality.traitValue
    rw [hn]
  have clamp_id : ∀ x : ℚ, 0 ≤ x → x ≤ 1 → clamp01 x = x := by
    intro x h0 h1
    unfold clamp01
    rw [min_eq_right h1, max_eq_right h0]
  have combo_mem : ∀ x : ℚ, 0 ≤ x → x ≤ 1 →
      0 ≤ x * (9/10) + t * (1/10) ∧ x * (9/10) + t * (1/10) ≤ 1 := by
    intro x h0 h1
    constructor
    · have a1 : (0:ℚ) ≤ x * (9/10) := by positivity
      have a2 : (0:ℚ) ≤ t * (1/10) := by
        have := ht.1
        positivity
      linarith
    · have b1 : x * (9/10) ≤ 1 * (9/10) := by nlinarith
      have b2 : t * (1/10) ≤ 1 * (1/10) := by nlinarith [ht.2]
      linarith
  intro n
  induction n with
  | zero =>
    refine ⟨by rw [value_of 0 tr htr]; exact hv0, ?_⟩
    obtain ⟨hm0, hm1⟩ := combo_mem tr.value hv0.1 hv0.2
    rw [step 0 tr htr, value_of 0 tr htr, clamp_id _ hm0 hm1]
    ring
  | succ n ih =>
    obtain ⟨trn, hn⟩ := hsome n
    obtain ⟨trn1, hn1⟩ := hsome (n+1)
    have hvn : (p.evolveN ctx ts n).traitValue name = trn.value := value_of n trn hn
    have hb := ih.1
    rw [hvn] at hb
    obtain ⟨hm0, hm1⟩ := combo_mem trn.value hb.1 hb.2
    have hval1 : (p.evolveN ctx ts (n+1)).traitValue name
        = trn.value * (9/10) + t * (1/10) := by
      rw [step n trn hn, clamp_id _ hm0 hm1]
    constructor
    · constructor
      · rw [hval1]; exact hm0
      · rw [hval1]; exact hm1
    · obtain ⟨hm0', hm1'⟩ := combo_mem _ (hval1 ▸ hm0) (hval1 ▸ hm1)
      rw [step (n+1) trn1 hn1, value_of (n+1) trn1 hn1] at *
      have hv1 : trn1.value = trn.value * (9/10) + t * (1/10) := hval1
      rw [clamp_id _ (hv1 ▸ hm0') (hv1 ▸ hm1'), hv1]
      ring

theorem clamp01_eq_self {x : ℚ} (h0 : 0 ≤ x) (h1 : x ≤ 1) : clamp01 x = x := by
  unfold clamp01
  rw [min_eq_right h1, max_eq_right h0]

theorem combo_bounds {x t : ℚ} (hx : 0 ≤ x ∧ x ≤ 1) (ht : 0 ≤ t ∧ t ≤ 1) :
    0 ≤ x * (9/10) + t * (1/10) ∧ x * (9/10) + t * (1/10) ≤ 1 := by
  constructor
  · nlinarith [hx.1, ht.1]
  · nlinarith [hx.2, ht.2]

/-- C2: for a trait with value `v ∈ [0,1]` whose name the context maps to a
target `t ∈ [0,1]`, `evolve` stores `0.9·v + 0.1·t` clamped to `[0,1]` (and
the clamp is the identity there); traits absent from the context keep their
entry unchanged; and iterating `evolve` with the constant context moves the
value monotonically toward `t` (the distance to `t` never increases and
becomes smaller than any positive bound). -/
theorem evolve_spec (p : Personality) (ctx : List (Str × ℚ)) (ts : ℕ)
    (name : Str) (tr : PersonalityTrait) (t : ℚ)
    (hnd : (p.traits.map Prod.fst).Nodup)
    (htr : pyLookup p.traits name = some tr)
    (hctx : pyLookup ctx name = some t)
    (hv : 0 ≤ tr.value ∧ tr.value ≤ 1) (ht : 0 ≤ t ∧ t ≤ 1) :
    ((p.evolve ctx ts).traitValue name = clamp01 (tr.value * (9/10) + t * (1/10))
      ∧ clamp01 (tr.value * (9/10) + t * (1/10)) = tr.value * (9/10) + t * (1/10))
    ∧ (∀ n2 tr2, pyLookup ctx n2 = none → pyLookup p.traits n2 = some tr2 →
        pyLookup (p.evolve ctx ts).traits n2 = some tr2)
    ∧ (∀ n, |(p.evolveN ctx ts (n+1)).traitValue name - t|
          ≤ |(p.evolveN ctx ts n).traitValue name - t|)
    ∧ (∀ ε : ℚ, 0 < ε → ∃ N, ∀ n, N ≤ n →
        |(p.evolveN ctx ts n).traitValue name - t| < ε) := by
  have evval := evolveN_value p ctx ts name tr t hnd htr hctx hv ht
  refine ⟨⟨?_, ?_⟩, ?_, ?_, ?_⟩
  · unfold Personality.traitValue
    rw [evolve_lookup p ctx ts name tr hnd htr, hctx]
    rfl
  · obtain ⟨h0, h1⟩ := combo_bounds hv ht
    exact clamp01_eq_self h0 h1
  · intro n2 tr2 hc2 htr2
    rw [evolve_lookup p ctx ts n2 tr2 hnd htr2, hc2]
  · intro n
    rw [(evval n).2, abs_mul, abs_of_pos (show (0:ℚ) < 9/10 by norm_num)]
    exact mul_le_of_le_one_left (abs_nonneg _) (by norm_num)
  · have geom : ∀ n, |(p.evolveN ctx ts n).traitValue name - t|
        = (9/10)^n * |p.traitValue name - t| := by
      intro n
      induction n with
      | zero =>
        show |(p.evolveN ctx ts 0).traitValue name - t| = _
        rw [pow_zero, one_mul]
        rfl
      | succ n ih =>
        rw [(evval n).2, abs_mul,
          abs_of_pos (show (0:ℚ) < 9/10 by norm_num), ih, pow_succ]
        ring
    intro ε hε
    set d := |p.traitValue name - t| with hd
    have hd0 : 0 ≤ d := abs_nonneg _
    rcases lt_or_eq_of_le hd0 with hpos | hzero
    · obtain ⟨N, hN⟩ := exists_pow_lt_of_lt_one (div_pos hε hpos)
        (show (9/10:ℚ) < 1 by norm_num)
      refine ⟨N, fun n hn => ?_⟩
      rw [geom n]
      have h1 : (9/10:ℚ)^n ≤ (9/10:ℚ)^N :=
        pow_le_pow_of_le_one (by norm_num) (by norm_num) hn
      have h2 : (9/10:ℚ)^N * d < ε := (lt_div_iff₀ hpos).1 hN
      nlinarith
    · refine ⟨0, fun n _ => ?_⟩
      rw [geom n, ← hzero, mul_zero]
      exact hε

/-- Concrete trait used by the C2 witness. -/
def demoTraitC2 : PersonalityTrait := ⟨"x".data, 0, []⟩

/-- Concrete personality used by the C2 witness. -/
def demoPersonality2 : Personality := ⟨[("x".data, demoTraitC2)], 0⟩

/-- Concrete context used by the C2 witness. -/
def demoCtx : List (Str × ℚ) := [("x".data, 0)]

/-- Witness for C2 at a concrete personality, trait and context. -/
theorem evolve_spec_witness :
    ((demoPersonality2.traits.map Prod.fst).Nodup
      ∧ pyLookup demoPersonality2.traits "x".data = some demoTraitC2
      ∧ pyLookup demoCtx "x".data = some 0
      ∧ (0 ≤ demoTraitC2.value ∧ demoTraitC2.value ≤ 1)
      ∧ ((0:ℚ) ≤ 0 ∧ (0:ℚ) ≤ 1))
    ∧ (((demoPersonality2.evolve demoCtx 7).traitValue "x".data
          = clamp01 (demoTraitC2.value * (9/10) + 0 * (1/10))
        ∧ clamp01 (demoTraitC2.value * (9/10) + 0 * (1/10))
          = demoTraitC2.value * (9/10) + 0 * (1/10))
      ∧ (∀ n2 tr2, pyLookup demoCtx n2 = none →
          pyLookup demoPersonality2.traits n2 = some tr2 →
          pyLookup (demoPersonality2.evolve demoCtx 7).traits n2 = some tr2)
      ∧ (∀ n, |(demoPersonality2.evolveN demoCtx 7 (n+1)).traitValue "x".data - 0|
            ≤ |(demoPersonality2.evolveN demoCtx 7 n).traitValue "x".data - 0|)
      ∧ (∀ ε : ℚ, 0 < ε → ∃ N, ∀ n, N ≤ n →
          |(demoPersonality2.evolveN demoCtx 7 n).traitValue "x".data - 0| < ε)) :=
  ⟨⟨by simp [demoPersonality2, demoTraitC2], rfl, rfl,
    ⟨by simp [demoTraitC2], by simp [demoTraitC2]⟩, ⟨le_refl 0, by norm_num⟩⟩,
    evolve_spec demoPersonality2 demoCtx 7 "x".data demoTraitC2 0
      (by simp [demoPersonality2, demoTraitC2]) rfl rfl
      ⟨by simp [demoTraitC2], by simp [demoTraitC2]⟩ ⟨le_refl 0, by norm_num⟩⟩

/-- Concrete trait used by the C4 witness. -/
def demoTraitC4 : PersonalityTrait := ⟨"y".data, 1/2, []⟩

/-- Concrete personality used by the C4 witness. -/
def demoPersonality4 : Personality := ⟨[("y".data, demoTraitC4)], 0⟩

/-- Witness for C4: updating a known trait with the out-of-range value 2
stores the clamp, appends one history entry, stamps the time; an unknown
name is a no-op. -/
theorem update_trait_spec_witness :
    (pyLookup demoPersonality4.traits "y".data = some demoTraitC4
      ∧ pyLookup demoPersonality4.traits "z".data = none)
    ∧ (pyLookup (demoPersonality4.update_trait "y".data 2 5).traits "y".data
        = some (demoTraitC4.update 2 5)
      ∧ (demoTraitC4.update 2 5).value = clamp01 2
      ∧ 0 ≤ (demoTraitC4.update 2 5).value ∧ (demoTraitC4.update 2 5).value ≤ 1
      ∧ (demoTraitC4.update 2 5).history.length = demoTraitC4.history.length + 1
      ∧ (demoPersonality4.update_trait "y".data 2 5).last_updated = 5
      ∧ ∀ n, n ≠ "y".data →
          pyLookup (demoPersonality4.update_trait "y".data 2 5).traits n
            = pyLookup demoPersonality4.traits n)
    ∧ demoPersonality4.update_trait "z".data 2 5 = demoPersonality4 :=
  ⟨⟨rfl, rfl⟩,
    (update_trait_spec demoPersonality4 "y".data 2 5).1 demoTraitC4 rfl,
    (update_trait_spec demoPersonality4 "z".data 2 5).2 rfl⟩

/-! ## C3: capacity behaviour of `add_memory` -/

/-- C3 counterexample: with `max_memories = 0` the trim slice
`self.memories[-0:]` is the whole list, so one successful `add_memory` on an
empty (hence cap-respecting) store leaves 1 > 0 records: the cap is
exceeded. -/
theorem add_memory_cap_counterexample :
    MemorySystem.add_memory ⟨0, []⟩ (fun _ => some []) "a".data "t".data [] 3
      = Except.ok ⟨0, [⟨"a".data, "t".data, [], 3, []⟩]⟩
    ∧ ¬ ([(⟨"a".data, "t".data, [], 3, []⟩ : MemoryRecord)].length ≤ 0) :=
  ⟨rfl, by decide⟩

/-- C3 amended: when `max_memories ≥ 1`, a successful `add_memory` on a store
within its cap appends the record, drops the oldest entries when the cap
would be exceeded (the result is a suffix of the appended list), and leaves
at most `max_memories` records. -/
theorem add_memory_cap (st : MemorySystem) (embed : Str → Option (List ℚ))
    (content memory_type : Str) (metadata : List (Str × Str)) (ts : ℕ)
    (e : List ℚ)
    (hcap : 1 ≤ st.max_memories)
    (hlen : st.memories.length ≤ st.max_memories)
    (hemb : embed content = some e) :
    ∃ r, st.add_memory embed content memory_type metadata ts = Except.ok r
      ∧ r.max_memories = st.max_memories
      ∧ r.memories.length ≤ st.max_memories
      ∧ List.IsSuffix r.memories (st.memories ++
          [⟨content, memory_type, e, ts, metadata⟩])
      ∧ (st.memories.length + 1 ≤ st.max_memories →
          r.memories = st.memories ++ [⟨content, memory_type, e, ts, metadata⟩]) := by
  unfold MemorySystem.add_memory
  rw [hemb]
  set rec0 : MemoryRecord := ⟨content, memory_type, e, ts, metadata⟩ with hrec
  set L := st.memories ++ [rec0] with hL
  have hLlen : L.length = st.memories.length + 1 := by
    rw [hL, List.length_append, List.length_singleton]
  by_cases hover : L.length > st.max_memories
  · refine ⟨⟨st.max_memories, pySliceLast L st.max_memories⟩, ?_, rfl, ?_, ?_, ?_⟩
    · simp only [if_pos hover]
    · unfold pySliceLast
      rw [if_neg (by omega), List.length_drop]
      omega
    · unfold pySliceLast
      rw [if_neg (by omega)]
      exact List.drop_suffix _ _
    · intro hfits
      omega
  · refine ⟨⟨st.max_memories, L⟩, ?_, rfl, ?_, List.suffix_refl L, fun _ => rfl⟩
    · simp only [if_neg hover]
    · show L.length ≤ st.max_memories
      omega

/-- Concrete record used by the C3 witness. -/
def demoRec0 : MemoryRecord := ⟨"m0".data, "t".data, [], 0, []⟩

/-- Witness for the amended C3: a store at cap 1 holding one record accepts a
new one and keeps only the newest. -/
theorem add_memory_cap_witness :
    (1 ≤ (1:ℕ) ∧ [demoRec0].length ≤ 1
      ∧ (fun _ : Str => some ([] : List ℚ)) "c".data = some [])
    ∧ ∃ r, MemorySystem.add_memory ⟨1, [demoRec0]⟩ (fun _ => some [])
          "c".data "t".data [] 9 = Except.ok r
        ∧ r.max_memories = 1
        ∧ r.memories.length ≤ 1
        ∧ List.IsSuffix r.memories ([demoRec0] ++ [⟨"c".data, "t".data, [], 9, []⟩])
        ∧ ([demoRec0].length + 1 ≤ 1 →
            r.memories = [demoRec0] ++ [⟨"c".data, "t".data, [], 9, []⟩]) :=
  ⟨⟨by decide, by decide, rfl⟩,
    add_memory_cap ⟨1, [demoRec0]⟩ (fun _ => some []) "c".data "t".data [] 9 []
      (by decide) (by decide) rfl⟩

/-! ## C9: persistence round-trip -/

theorem decodeMeta_encodeMeta (m : List (Str × Str)) :
    decodeMeta (encodeMeta m) = some m := by
  induction m with
  | nil => rfl
  | cons p tl ih =>
    obtain ⟨k, v⟩ := p
    simp only [encodeMeta, decodeMeta, List.map_cons, List.mapM_cons] at ih ⊢
    rw [show ((tl.map fun p => (p.1, Json.str p.2)).mapM fun p =>
        match p.2 with
        | Json.str s => some (p.1, s)
        | _ => none) = some tl from ih]
    rfl

theorem decodeEmbedding_encode (l : List ℚ) :
    decodeEmbedding (Json.arr (l.map Json.num)) = some l := by
  induction l with
  | nil => rfl
  | cons q tl ih =>
    simp only [decodeEmbedding, List.map_cons, List.mapM_cons] at ih ⊢
    rw [show ((tl.map Json.num).mapM fun j =>
        match j with
        | Json.num q => some q
        | _ => none) = some tl from ih]
    rfl

theorem decodeRecord_encodeRecord (r : MemoryRecord) :
    decodeRecord (encodeRecord r) = some r := by
  obtain ⟨c, ty, e, ts, meta⟩ := r
  simp only [encodeRecord, decodeRecord]
  rw [if_pos]
  · rw [decodeEmbedding_encode, decodeMeta_encodeMeta]
    simp [Rat.num_natCast]
  · refine ⟨trivial, trivial, trivial, trivial, trivial, ?_, ?_⟩
    · exact Rat.den_natCast ts
    · rw [Rat.num_natCast]
      exact Int.natCast_nonneg ts

/-- C9: saving the record list to the memory file and loading it back yields
the identical ordered sequence of records. -/
theorem save_load_roundtrip (st : MemorySystem) :
    load_memories (save_memories st) = some st.memories := by
  unfold save_memories load_memories
  induction st.memories with
  | nil => rfl
  | cons r tl ih =>
    simp only [List.map_cons, List.mapM_cons, decodeRecord_encodeRecord] at ih ⊢
    rw [show ((tl.map encodeRecord).mapM decodeRecord) = some tl from ih]
    rfl

/-! ## C10: read operations that mutate the store order -/

/-- Records for the C10 composition example: `demoRecB` is inserted first
(timestamp 1), `demoRecA` second (timestamp 2). -/
def demoRecA : MemoryRecord := ⟨"a".data, "t".data, [], 2, []⟩

/-- Second record of the C10 example, the oldest by timestamp. -/
def demoRecB : MemoryRecord := ⟨"b".data, "t".data, [], 1, []⟩

/-- The record added after the in-place sort in the C10 example. -/
def demoRecC : MemoryRecord := ⟨"c".data, "t".data, [], 0, []⟩

/-- C10: without a type filter, `get_recent_memories` sorts the stored list
in place (descending by timestamp), so the post-call store is timestamp
ordered, not insertion ordered; with a truthy filter the store is untouched;
`get_memories_for_reflection` always sorts in place; and a subsequent
capacity trim then drops the records with the largest timestamps from the
front (in the example the later-inserted `demoRecA` is evicted while the
earlier-inserted `demoRecB` survives — not FIFO on insertion order). -/
theorem get_recent_inplace_sort :
    (∀ (st : MemorySystem) (limit : ℕ),
        ((st.get_recent_memories limit none).2).memories
            = st.memories.insertionSort recRel
        ∧ (st.get_recent_memories limit none).1
            = (st.memories.insertionSort recRel).take limit
        ∧ ((st.get_recent_memories limit none).2).memories.Pairwise recRel)
    ∧ (∀ (st : MemorySystem) (limit : ℕ) (t : Str), t ≠ [] →
        (st.get_recent_memories limit (some t)).2 = st)
    ∧ (∀ (st : MemorySystem) (tp : Option Str) (limit : ℕ),
        ((st.get_memories_for_reflection tp limit).2).memories
            = st.memories.insertionSort recRel
        ∧ ((st.get_memories_for_reflection tp limit).2).memories.Pairwise recRel)
    ∧ ((((⟨2, [demoRecB, demoRecA]⟩ : MemorySystem).get_recent_memories 10
            none).2).add_memory (fun _ => some []) "c".data "t".data [] 0
        = Except.ok ⟨2, [demoRecB, demoRecC]⟩) := by
  refine ⟨?_, ?_, ?_, ?_⟩
  · intro st limit
    refine ⟨rfl, rfl, ?_⟩
    exact List.sorted_insertionSort recRel st.memories
  · intro st limit t ht
    unfold MemorySystem.get_recent_memories
    rw [if_pos (by simp [truthyOpt, ht])]
  · intro st tp limit
    exact ⟨rfl, List.sorted_insertionSort recRel st.memories⟩
  · rfl

/-- Witness for C10's filtered branch: a truthy type filter leaves the store
untouched. -/
theorem get_recent_inplace_sort_witness :
    ("x".data ≠ ([] : Str))
    ∧ ((⟨3, [demoRecA]⟩ : MemorySystem).get_recent_memories 5
        (some "x".data)).2 = ⟨3, [demoRecA]⟩ :=
  ⟨by decide, get_recent_inplace_sort.2.1 ⟨3, [demoRecA]⟩ 5 "x".data (by decide)⟩

/-! ## C5 and C1: `get_relevant_memories` -/

theorem mapM_scoreOne_error (qe : List ℚ) (l : List MemoryRecord)
    (h : ∃ m ∈ l, npDot qe m.embedding = none) :
    ∃ e, mapMExcept (scoreOne qe) l = Except.error e := by
  induction l with
  | nil =>
    obtain ⟨m, hm, _⟩ := h
    exact absurd hm (List.not_mem_nil m)
  | cons a tl ih =>
    obtain ⟨m, hm, hnone⟩ := h
    rcases List.mem_cons.1 hm with rfl | hmem
    · exact ⟨"ValueError", by simp [mapMExcept, scoreOne, hnone]⟩
    · obtain ⟨e, he⟩ := ih ⟨m, hmem, hnone⟩
      cases hsa : scoreOne qe a with
      | error e2 => exact ⟨e2, by simp [mapMExcept, hsa]⟩
      | ok b => exact ⟨e, by simp [mapMExcept, hsa, he]⟩

/-- C5: any internal failure of `get_relevant_memories` — a failed query
embedding, a record on which `np.dot` raises, or any error from the
score-sort core (including the tied-score `TypeError`) — makes the call
return `[]` instead of propagating the exception. -/
theorem get_relevant_memories_soft_fail (st : MemorySystem)
    (embed : Str → Option (List ℚ)) (query : Str) (limit : ℕ)
    (mtype : Option Str) :
    (embed query = none →
      st.get_relevant_memories embed query limit mtype = [])
    ∧ (∀ qe e, embed query = some qe →
        relevantCore (filterByType st.memories mtype) qe limit
          = Except.error e →
        st.get_relevant_memories embed query limit mtype = [])
    ∧ (∀ qe, embed query = some qe →
        (∃ m ∈ filterByType st.memories mtype, npDot qe m.embedding = none) →
        st.get_relevant_memories embed query limit mtype = [])
    ∧ (∀ qe scored, embed query = some qe →
        mapMExcept (scoreOne qe) (filterByType st.memories mtype)
          = Except.ok scored →
        ¬ (scored.map Prod.fst).Nodup →
        st.get_relevant_memories embed query limit mtype = []) := by
  refine ⟨?_, ?_, ?_, ?_⟩
  · intro h
    unfold MemorySystem.get_relevant_memories
    rw [h]
  · intro qe e hq hc
    unfold MemorySystem.get_relevant_memories
    simp only [hq]
    rw [hc]
  · intro qe hq hex
    obtain ⟨e, he⟩ := mapM_scoreOne_error qe _ hex
    unfold MemorySystem.get_relevant_memories relevantCore
    simp only [hq]
    rw [he]
  · intro qe scored hq hok hnd
    unfold MemorySystem.get_relevant_memories relevantCore
    simp only [hq, hok]
    rw [if_neg hnd]

/-- Witness for C5: a failing embedder yields the empty list. -/
theorem get_relevant_memories_soft_fail_witness :
    ((fun _ : Str => (none : Option (List ℚ))) "q".data = none)
    ∧ MemorySystem.get_relevant_memories ⟨10, [demoRecA]⟩ (fun _ => none)
        "q".data 5 none = [] :=
  ⟨rfl, (get_relevant_memories_soft_fail ⟨10, [demoRecA]⟩ (fun _ => none)
    "q".data 5 none).1 rfl⟩

/-- First record of the C1 tie counterexample. -/
def tieRec1 : MemoryRecord := ⟨"one".data, "t".data, [], 0, []⟩

/-- Second record of the C1 tie counterexample. -/
def tieRec2 : MemoryRecord := ⟨"two".data, "t".data, [], 1, []⟩

/-- C1 counterexample: two records whose dot-product scores tie (both 0).
CPython's `similarities.sort(reverse=True)` then compares the second tuple
components — dicts — raising `TypeError`, and the soft-fail returns `[]`
rather than the stable descending order `[tieRec1, tieRec2]` the claim
requires. -/
theorem get_relevant_memories_tie_counterexample :
    MemorySystem.get_relevant_memories ⟨10, [tieRec1, tieRec2]⟩
        (fun _ => some []) "q".data 5 none = []
    ∧ ([] : List MemoryRecord) ≠ [tieRec1, tieRec2] :=
  ⟨rfl, by decide⟩

/-- The score `get_relevant_memories` assigns to a record (defined when
`np.dot` does not raise). -/
def scoreRecord (qe : List ℚ) (m : MemoryRecord) : ℚ :=
  (npDot qe m.embedding).getD 0

theorem mapM_scoreOne_ok (qe : List ℚ) (l : List MemoryRecord)
    (hall : ∀ m ∈ l, (npDot qe m.embedding).isSome) :
    mapMExcept (scoreOne qe) l
      = Except.ok (l.map fun m => (scoreRecord qe m, m)) := by
  induction l with
  | nil => rfl
  | cons a tl ih =>
    have ha := hall a (List.mem_cons_self a tl)
    obtain ⟨sc, hs⟩ := Option.isSome_iff_exists.1 ha
    have htl := ih fun m hm => hall m (List.mem_cons_of_mem a hm)
    simp [mapMExcept, scoreOne, hs, htl, scoreRecord]

theorem filterByType_nil (mtype : Option Str) :
    filterByType [] mtype = [] := by
  unfold filterByType
  split <;> rfl

/-- C1 amended: when the query embedding succeeds, every retained record is
scorable and all scores are pairwise distinct, `get_relevant_memories`
returns at most `limit` records in descending score order, and an empty
store yields `[]`; ties instead abort the sort and soft-fail to `[]`
(see the counterexample). -/
theorem get_relevant_memories_spec (st : MemorySystem)
    (embed : Str → Option (List ℚ)) (query : Str) (limit : ℕ)
    (mtype : Option Str) (qe : List ℚ) (out : List MemoryRecord)
    (hq : embed query = some qe)
    (hall : ∀ m ∈ filterByType st.memories mtype, (npDot qe m.embedding).isSome)
    (hnd : ((filterByType st.memories mtype).map (scoreRecord qe)).Nodup)
    (hout : out = st.get_relevant_memories embed query limit mtype) :
    out.length ≤ limit
    ∧ (out.map (scoreRecord qe)).Pairwise (· ≥ ·)
    ∧ (st.memories = [] → out = []) := by
  have hok := mapM_scoreOne_ok qe _ hall
  have hfst : ((filterByType st.memories mtype).map
      fun m => (scoreRecord qe m, m)).map Prod.fst
      = (filterByType st.memories mtype).map (scoreRecord qe) := by
    rw [List.map_map]
    rfl
  have hnd2 : (((filterByType st.memories mtype).map
      fun m => (scoreRecord qe m, m)).map Prod.fst).Nodup := by
    rw [hfst]
    exact hnd
  have hcore : relevantCore (filterByType st.memories mtype) qe limit
      = Except.ok (((((filterByType st.memories mtype).map
          fun m => (scoreRecord qe m, m)).insertionSort memRel).take
            limit).map Prod.snd) := by
    unfold relevantCore
    simp only [hok]
    rw [if_pos hnd2]
  have hout2 : out = ((((filterByType st.memories mtype).map
      fun m => (scoreRecord qe m, m)).insertionSort memRel).take
        limit).map Prod.snd := by
    rw [hout]
    unfold MemorySystem.get_relevant_memories
    simp only [hq]
    rw [hcore]
  have hsorted := List.sorted_insertionSort memRel
    ((filterByType st.memories mtype).map fun m => (scoreRecord qe m, m))
  have htake : (((((filterByType st.memories mtype).map
      fun m => (scoreRecord qe m, m)).insertionSort memRel)).take
        limit).Pairwise memRel :=
    List.Pairwise.sublist (List.take_sublist _ _) hsorted
  refine ⟨?_, ?_, ?_⟩
  · rw [hout2, List.length_map, List.length_take]
    exact min_le_left _ _
  · have hmem : ∀ p ∈ ((((filterByType st.memories mtype).map
        fun m => (scoreRecord qe m, m)).insertionSort memRel)).take limit,
        scoreRecord qe p.2 = p.1 := by
      intro p hp
      have hp1 := (List.take_sublist limit _).subset hp
      have hp2 := (List.perm_insertionSort memRel _).mem_iff.1 hp1
      obtain ⟨m, _, hpe⟩ := List.mem_map.1 hp2
      rw [← hpe]
    have hmapeq : ((((((filterByType st.memories mtype).map
        fun m => (scoreRecord qe m, m)).insertionSort memRel)).take
          limit).map Prod.snd).map (scoreRecord qe)
        = (((((filterByType st.memories mtype).map
          fun m => (scoreRecord qe m, m)).insertionSort memRel)).take
            limit).map Prod.fst := by
      rw [List.map_map]
      exact List.map_congr_left fun p hp => hmem p hp
    rw [hout2, hmapeq]
    exact List.pairwise_map.2 htake
  · intro hempty
    rw [hout2, hempty, filterByType_nil]
    simp

/-- Witness for the amended C1 at a one-record store: the query embeds, the
single score is trivially duplicate-free, and the call returns that record. -/
theorem get_relevant_memories_spec_witness :
    ((fun _ : Str => some ([] : List ℚ)) "q".data = some []
      ∧ (∀ m ∈ filterByType [tieRec1] none, (npDot [] m.embedding).isSome)
      ∧ ((filterByType [tieRec1] none).map (scoreRecord [])).Nodup
      ∧ [tieRec1] = MemorySystem.get_relevant_memories ⟨10, [tieRec1]⟩
          (fun _ => some []) "q".data 5 none)
    ∧ ([tieRec1].length ≤ 5
      ∧ ([tieRec1].map (scoreRecord [])).Pairwise (· ≥ ·)
      ∧ (([demoRecA] : List MemoryRecord) = [] → [tieRec1] = [])) := by
  refine ⟨⟨rfl, ?_, by decide, rfl⟩, ?_⟩
  · intro m hm
    rcases List.mem_cons.1 hm with rfl | hm2
    · rfl
    · exact absurd hm2 (List.not_mem_nil m)
  · refine ?_
    have hw := get_relevant_memories_spec ⟨10, [tieRec1]⟩ (fun _ => some [])
      "q".data 5 none [] [tieRec1] rfl
      (by
        intro m hm
        rcases List.mem_cons.1 hm with rfl | hm2
        · rfl
        · exact absurd hm2 (List.not_mem_nil m))
      (by decide) rfl
    exact ⟨hw.1, hw.2.1, fun h => absurd h (by decide)⟩

/-! ## C6: the orchestrator re-raises every failure -/

/-- C6: a failure in any of the five orchestrator steps (recall, generate,
record, analyze, apply) is re-raised unchanged to the caller — no retry, no
conversion into a degraded success — and a successful result certifies that
every step succeeded. -/
theorem simulate_response_reraise {ε : Type}
    (recallMems : Except ε (List MemoryRecord))
    (generate : List MemoryRecord → Except ε Str)
    (analyze : Str → Except ε Sections)
    (applyUpdates : Sections → Except ε Unit)
    (hist : List Str) :
    (∀ e, recallMems = Except.error e →
      simulate_response recallMems generate analyze applyUpdates hist
        = Except.error e)
    ∧ (∀ mems e, recallMems = Except.ok mems → generate mems = Except.error e →
      simulate_response recallMems generate analyze applyUpdates hist
        = Except.error e)
    ∧ (∀ mems r e, recallMems = Except.ok mems → generate mems = Except.ok r →
      analyze r = Except.error e →
      simulate_response recallMems generate analyze applyUpdates hist
        = Except.error e)
    ∧ (∀ mems r a e, recallMems = Except.ok mems → generate mems = Except.ok r →
      analyze r = Except.ok a → applyUpdates a = Except.error e →
      simulate_response recallMems generate analyze applyUpdates hist
        = Except.error e)
    ∧ (∀ r i, simulate_response recallMems generate analyze applyUpdates hist
        = Except.ok (r, i) →
      ∃ mems a, recallMems = Except.ok mems ∧ generate mems = Except.ok r
        ∧ analyze r = Except.ok a ∧ applyUpdates a = Except.ok ()
        ∧ i = (hist ++ [r]).length - 1) := by
  refine ⟨?_, ?_, ?_, ?_, ?_⟩
  · intro e h
    unfold simulate_response
    simp only [h]
  · intro mems e h1 h2
    unfold simulate_response
    simp only [h1, h2]
  · intro mems r e h1 h2 h3
    unfold simulate_response
    simp only [h1, h2, h3]
  · intro mems r a e h1 h2 h3 h4
    unfold simulate_response
    simp only [h1, h2, h3, h4]
  · intro r i h
    unfold simulate_response at h
    cases hrec : recallMems with
    | error e =>
      simp only [hrec] at h
      exact Except.noConfusion h
    | ok mems =>
      simp only [hrec] at h
      cases hgen : generate mems with
      | error e =>
        simp only [hgen] at h
        exact Except.noConfusion h
      | ok resp =>
        simp only [hgen] at h
        cases han : analyze resp with
        | error e =>
          simp only [han] at h
          exact Except.noConfusion h
        | ok a =>
          simp only [han] at h
          cases happ : applyUpdates a with
          | error e =>
            simp only [happ] at h
            exact Except.noConfusion h
          | ok u =>
            cases u
            simp only [happ, Except.ok.injEq, Prod.mk.injEq] at h
            obtain ⟨hr, hi⟩ := h
            subst hr
            exact ⟨mems, a, rfl, hgen, han, happ, hi.symm⟩

/-- Witness for C6: a failing recall step propagates its error. -/
theorem simulate_response_reraise_witness :
    simulate_response (Except.error "boom")
      (fun _ => Except.ok "r".data) (fun _ => Except.ok [])
      (fun _ => Except.ok ()) ([] : List Str) = Except.error "boom" :=
  (simulate_response_reraise (Except.error "boom") (fun _ => Except.ok "r".data)
    (fun _ => Except.ok []) (fun _ => Except.ok ()) []).1 "boom" rfl

/-! ## C7: the line-oriented section parser -/

theorem parseStep_keeps (st : ParseState) (line : Str)
    (h : strEndsWith (strTrim line) [':'] = false) :
    (parseStep st line).sections = st.sections
    ∧ (parseStep st line).current_section = st.current_section := by
  simp only [parseStep]
  by_cases h0 : strTrim line = []
  · rw [if_pos h0]
    exact ⟨rfl, rfl⟩
  · rw [if_neg h0]
    simp only [h, Bool.false_eq_true, if_false]
    split
    · exact ⟨rfl, rfl⟩
    · exact ⟨rfl, rfl⟩

theorem foldl_parseStep_keeps (lines : List Str)
    (h : ∀ line ∈ lines, strEndsWith (strTrim line) [':'] = false) :
    ∀ st : ParseState, (lines.foldl parseStep st).sections = st.sections
      ∧ (lines.foldl parseStep st).current_section = st.current_section := by
  induction lines with
  | nil => intro st; exact ⟨rfl, rfl⟩
  | cons a tl ih =>
    intro st
    have ha := parseStep_keeps st a (h a (List.mem_cons_self a tl))
    have htl := ih (fun l hl => h l (List.mem_cons_of_mem a hl)) (parseStep st a)
    rw [List.foldl_cons]
    exact ⟨htl.1.trans ha.1, htl.2.trans ha.2⟩

/-- C7: the section parser maps a stripped colon-terminated line to a new
lower-cased section (flushing the previous one), appends stripped "- " lines
to the current section, skips blank lines; the concrete input from the spec
parses to the expected mapping, and any input with no colon-terminated line
parses to the empty mapping. -/
theorem parseSections_spec :
    (parseSections "FOO:\n- a\n- b\n\nBAR:\n- c".data
        = [("foo".data, ["a".data, "b".data]), ("bar".data, ["c".data])])
    ∧ (∀ text : Str, (∀ line ∈ splitLines text,
          strEndsWith (strTrim line) [':'] = false) → parseSections text = [])
    ∧ (∀ st line, strTrim line = [] → parseStep st line = st)
    ∧ (∀ st line, strTrim line ≠ [] →
        strEndsWith (strTrim line) [':'] = true →
        parseStep st line =
          ⟨flushSection st, some (strLower (strTrim line).dropLast), []⟩)
    ∧ (∀ st line, strTrim line ≠ [] →
        strEndsWith (strTrim line) [':'] = false →
        strStartsWith (strTrim line) ['-', ' '] = true →
        parseStep st line =
          { st with current_items := st.current_items ++ [(strTrim line).drop 2] }) := by
  refine ⟨by decide, ?_, ?_, ?_, ?_⟩
  · intro text h
    have hkeep := foldl_parseStep_keeps (splitLines text) h ⟨[], none, []⟩
    unfold parseSections
    simp only [flushSection, hkeep.2, hkeep.1]
  · intro st line h0
    simp only [parseStep]
    rw [if_pos h0]
  · intro st line h0 h1
    simp only [parseStep]
    rw [if_neg h0]
    simp only [h1, if_true]
  · intro st line h0 h1 h2
    simp only [parseStep]
    rw [if_neg h0]
    simp only [h1, Bool.false_eq_true, if_false, h2, if_true]

/-- Witness for C7's universally quantified parts at concrete inputs. -/
theorem parseSections_spec_witness :
    ((∀ line ∈ splitLines "hello\n- x".data,
        strEndsWith (strTrim line) [':'] = false)
      ∧ parseSections "hello\n- x".data = [])
    ∧ (strTrim "  ".data = [] ∧ parseStep ⟨[], none, []⟩ "  ".data = ⟨[], none, []⟩) :=
  ⟨⟨by decide, parseSections_spec.2.1 "hello\n- x".data (by decide)⟩,
    ⟨by decide, parseSections_spec.2.2.1 ⟨[], none, []⟩ "  ".data (by decide)⟩⟩

/-! ## C8: threshold-gated response post-processing -/

/-- The trait mapping of the C8 scenario: only conscientiousness is present
(at 0.9); absent traits read as the 0.5 default. -/
def styleTraits : List (Str × ℚ) := [("conscientiousness".data, 9/10)]

/-- C8: with conscientiousness 0.9 above the formality threshold and the
defaulted 0.5 not above the enthusiasm and politeness thresholds,
post-processing "gonna do it." yields "going to do it." — the formality
substitutions run before the punctuation and politeness rules, which do not
fire. -/
theorem adjust_response_style_spec (f e p : ℚ)
    (h1 : (9/10 : ℚ) > f) (h2 : ¬ ((1/2 : ℚ) > e)) (h3 : ¬ ((1/2 : ℚ) > p)) :
    adjust_response_style "gonna do it.".data styleTraits f e p
      = "going to do it.".data := by
  have g1 : traitGet styleTraits "conscientiousness".data = 9/10 := rfl
  have g2 : traitGet styleTraits "extraversion".data = 1/2 := rfl
  have g3 : traitGet styleTraits "agreeableness".data = 1/2 := rfl
  simp only [adjust_response_style, g1, g2, g3]
  rw [if_pos h1, if_neg h2, if_neg h3]
  decide

/-- Witness for C8 with all three thresholds at 0.7. -/
theorem adjust_response_style_spec_witness :
    ((9/10 : ℚ) > 7/10 ∧ ¬ ((1/2 : ℚ) > 7/10) ∧ ¬ ((1/2 : ℚ) > 7/10))
    ∧ adjust_response_style "gonna do it.".data styleTraits (7/10) (7/10) (7/10)
        = "going to do it.".data :=
  ⟨⟨by norm_num, by norm_num, by norm_num⟩,
    adjust_response_style_spec (7/10) (7/10) (7/10)
      (by norm_num) (by norm_num) (by norm_num)⟩

end DigitalTwin
